import Mathlib

/-!
Verification of the bam toolbox pipeline (`seqkit/cmd/bam_toolbox.go`).

The Go source is shallowly embedded: pure record arithmetic becomes Lean
functions, the per-stage channel loops become folds over lists of records,
`panic`/`log.Fatal` become `Except.error`, and `float64` arithmetic is
modelled over `ℚ` with `Option ℚ` where `none` stands for a non-finite
IEEE-754 value (NaN or ±Inf) arising from a zero denominator.
-/

namespace BamToolbox

/-- Decidable equality on `Except`, used to evaluate the embedded functions
on concrete inputs. -/
instance exceptDecEq {ε α : Type} [DecidableEq ε] [DecidableEq α] :
    DecidableEq (Except ε α) := fun a b =>
  match a, b with
  | .error e, .error f =>
    if h : e = f then .isTrue (by rw [h])
    else .isFalse (fun hc => h (Except.error.injEq e f ▸ hc |> fun hh => by
      cases hc; rfl))
  | .ok x, .ok y =>
    if h : x = y then .isTrue (by rw [h])
    else .isFalse (fun hc => h (by cases hc; rfl))
  | .error _, .ok _ => .isFalse (fun hc => Except.noConfusion hc)
  | .ok _, .error _ => .isFalse (fun hc => Except.noConfusion hc)

/-- CIGAR operation types of the alignment container
(`sam.CigarMatch`, `sam.CigarInsertion`, ...). -/
inductive CigarOpType where
  | cigarMatch
  | cigarInsertion
  | cigarDeletion
  | cigarSkipped
  | cigarSoftClipped
  | cigarHardClipped
  | cigarPadded
  | cigarEqual
  | cigarMismatch
  | cigarBack
deriving DecidableEq, Repr

/-- One CIGAR operation: a type and a non-negative length (`op.Type()`, `op.Len()`). -/
structure CigarOp where
  type : CigarOpType
  len : Nat
deriving DecidableEq, Repr

/-- The dynamic value held by an auxiliary tag, as returned by `aux.Value()`:
one constructor per Go type handled by the `switch` in `GetSamAlnDetails` /
`GetSamAcc`, plus `vOther` for any other dynamic type (the `default` branch).
Signed widths carry their mathematical value as `ℤ`; unsigned widths carry `ℕ`. -/
inductive AuxValue where
  | vInt (v : Int)
  | vInt8 (v : Int)
  | vInt16 (v : Int)
  | vInt32 (v : Int)
  | vInt64 (v : Int)
  | vUInt (v : Nat)
  | vUInt8 (v : Nat)
  | vUInt16 (v : Nat)
  | vUInt32 (v : Nat)
  | vUInt64 (v : Nat)
  | vOther (s : String)
deriving DecidableEq, Repr

/-- `sam.Unmapped` flag bit of the alignment container (0x4). -/
def samUnmapped : Nat := 4

/-- An alignment record (`sam.Record`), restricted to the fields the toolbox
stages read.  `endPos` models `r.End()`, the reference end position derived by
the container library; `tags` models the auxiliary tag list queried by
`r.Tag`. -/
structure SamRecord where
  refName : String
  pos : Int
  endPos : Int
  flags : Nat
  cigar : List CigarOp
  tags : List (String × AuxValue)
deriving DecidableEq, Repr

/-- `GetSamMapped` (line 418): a record is mapped iff the unmapped flag bit is
clear (`r.Flags & sam.Unmapped == 0`). -/
def GetSamMapped (r : SamRecord) : Bool :=
  r.flags &&& samUnmapped == 0

/-- `r.Tag([]byte("NM"))`: first tag with the given name, if any. -/
def recTag (r : SamRecord) (name : String) : Option AuxValue :=
  r.tags.lookup name

/-- Go conversion `int(v)` applied to a `uint`/`uint64` value: the 64-bit
two's-complement reinterpretation. -/
def uint64ToInt (v : Nat) : Int :=
  ((v : Int) + 2 ^ 63) % 2 ^ 64 - 2 ^ 63

/-- The NM-tag decoding `switch` of `GetSamAlnDetails` (lines 369-392): each
integer width is converted with `int(...)`; the signed widths up to 64 bits
and unsigned widths up to 32 bits convert losslessly, `uint`/`uint64` wrap
into a signed 64-bit value, and any other dynamic type panics. -/
def decodeNM (a : AuxValue) : Except String Int :=
  match a with
  | .vInt v => .ok v
  | .vInt8 v => .ok v
  | .vInt16 v => .ok v
  | .vInt32 v => .ok v
  | .vInt64 v => .ok v
  | .vUInt v => .ok (uint64ToInt v)
  | .vUInt8 v => .ok v
  | .vUInt16 v => .ok v
  | .vUInt32 v => .ok v
  | .vUInt64 v => .ok (uint64ToInt v)
  | .vOther s => .error ("Could not parse NM tag: " ++ s)

/-- Running totals of the CIGAR loop of `GetSamAlnDetails` (lines 393-406):
`mm`, `ins`, `del`, `skip`. -/
structure CigarTotals where
  mm : Nat
  ins : Nat
  del : Nat
  skip : Nat
deriving DecidableEq, Repr

/-- One iteration of the CIGAR loop of `GetSamAlnDetails` (lines 393-406):
match/equal/mismatch add to `mm`, insertions to `ins`, deletions to `del`,
skips to `skip`, every other operation type is ignored. -/
def cigarStep (t : CigarTotals) (op : CigarOp) : CigarTotals :=
  match op.type with
  | .cigarMatch => { t with mm := t.mm + op.len }
  | .cigarEqual => { t with mm := t.mm + op.len }
  | .cigarMismatch => { t with mm := t.mm + op.len }
  | .cigarInsertion => { t with ins := t.ins + op.len }
  | .cigarDeletion => { t with del := t.del + op.len }
  | .cigarSkipped => { t with skip := t.skip + op.len }
  | _ => t

/-- The CIGAR loop of `GetSamAlnDetails` over the whole operation list. -/
def cigarTotals (c : List CigarOp) : CigarTotals :=
  c.foldl cigarStep ⟨0, 0, 0, 0⟩

/-- `AlnDetails` (lines 347-356).  `Acc` and `WAcc` are `float64` in the
source; they are modelled as `Option ℚ`, `none` standing for the non-finite
IEEE value produced when the denominator `mm+ins+del` is zero. -/
structure AlnDetails where
  Mismatch : Int
  MatchMismatch : Nat
  Insertion : Nat
  Deletion : Nat
  Skip : Nat
  Len : Nat
  Acc : Option Rat
  WAcc : Option Rat
deriving DecidableEq, Repr

/-- The accuracy expression of line 413, `(1.0 - float64(mismatch)/float64(len)) * 100`:
exact over ℚ when the denominator is non-zero, non-finite (`none`) when it is
zero. -/
def accExpr (mismatch : Int) (len : Nat) : Option Rat :=
  if len = 0 then none
  else some ((1 - (mismatch : Rat) / (len : Rat)) * 100)

/-- `GetSamAlnDetails` (lines 358-416): decode the NM tag (panicking when the
tag is absent or not an integer), total the CIGAR operations, and fill in the
detail record, with `Len = mm+ins+del` and the accuracy formulas of lines
413-414. -/
def GetSamAlnDetails (r : SamRecord) : Except String AlnDetails :=
  match recTag r "NM" with
  | none => .error "no NM tag"
  | some aux =>
    match decodeNM aux with
    | .error e => .error e
    | .ok mismatch =>
      let t := cigarTotals r.cigar
      let len := t.mm + t.ins + t.del
      let acc := accExpr mismatch len
      .ok { Mismatch := mismatch
            MatchMismatch := t.mm
            Insertion := t.ins
            Deletion := t.del
            Skip := t.skip
            Len := len
            Acc := acc
            WAcc := acc.map (fun a => a * (len : Rat)) }

/-- The NM-tag decoding `switch` of `GetSamAcc` (lines 432-455): the source
duplicates the switch of `GetSamAlnDetails` verbatim, so this is an
independent, textually parallel embedding of that second copy. -/
def decodeNMAcc (a : AuxValue) : Except String Int :=
  match a with
  | .vInt v => .ok v
  | .vInt8 v => .ok v
  | .vInt16 v => .ok v
  | .vInt32 v => .ok v
  | .vInt64 v => .ok v
  | .vUInt v => .ok (uint64ToInt v)
  | .vUInt8 v => .ok v
  | .vUInt16 v => .ok v
  | .vUInt32 v => .ok v
  | .vUInt64 v => .ok (uint64ToInt v)
  | .vOther s => .error ("Could not parse NM tag: " ++ s)

/-- One iteration of the CIGAR loop of `GetSamAcc` (lines 456-469), a verbatim
duplicate of the loop in `GetSamAlnDetails`. -/
def cigarStepAcc (t : CigarTotals) (op : CigarOp) : CigarTotals :=
  match op.type with
  | .cigarMatch => { t with mm := t.mm + op.len }
  | .cigarEqual => { t with mm := t.mm + op.len }
  | .cigarMismatch => { t with mm := t.mm + op.len }
  | .cigarInsertion => { t with ins := t.ins + op.len }
  | .cigarDeletion => { t with del := t.del + op.len }
  | .cigarSkipped => { t with skip := t.skip + op.len }
  | _ => t

/-- `GetSamAcc` (lines 422-471): the standalone accuracy function.  Decodes
the NM tag with its own copy of the switch, totals the CIGAR operations with
its own copy of the loop, and returns `(1.0 - float64(mismatch)/float64(mm+ins+del)) * 100`
(line 470), again with `none` for the non-finite value at a zero denominator. -/
def GetSamAcc (r : SamRecord) : Except String (Option Rat) :=
  match recTag r "NM" with
  | none => .error "no NM tag"
  | some aux =>
    match decodeNMAcc aux with
    | .error e => .error e
    | .ok mismatch =>
      let t := r.cigar.foldl cigarStepAcc ⟨0, 0, 0, 0⟩
      .ok (accExpr mismatch (t.mm + t.ins + t.del))

/-! ## The AccStats stage (`BamToolAccStats`, lines 319-345) -/

/-- Sum of two `float64` accumulands modelled over `Option ℚ`: a non-finite
operand poisons the sum, as NaN/Inf does in IEEE arithmetic. -/
def optAdd (a b : Option Rat) : Option Rat :=
  match a, b with
  | some x, some y => some (x + y)
  | _, _ => none

/-- `float64` division of an accumulated sum by a count/length cast with
`float64(·)`: a non-finite numerator or a zero denominator gives a non-finite
result (`none`). -/
def optDivNat (a : Option Rat) (n : Nat) : Option Rat :=
  match a with
  | none => none
  | some x => if n = 0 then none else some (x / (n : Rat))

/-- The running accumulator of `BamToolAccStats` (lines 320-323):
`totalLen`, `accSum`, `wAccSum`, `nr`.  The `float64` sums are `Option ℚ`. -/
structure AccAccum where
  totalLen : Nat
  accSum : Option Rat
  wAccSum : Option Rat
  nr : Nat
deriving DecidableEq, Repr

/-- Initial accumulator values (lines 320-323). -/
def accInit : AccAccum := ⟨0, some 0, some 0, 0⟩

/-- One iteration body of the record loop of `BamToolAccStats`
(lines 330-337), without the forwarding: mapped records are scored with
`GetSamAlnDetails` (whose panic aborts the stage) and accumulated; unmapped
records leave the accumulator unchanged. -/
def accStatsStep (a : AccAccum) (r : SamRecord) : Except String AccAccum :=
  if GetSamMapped r then
    match GetSamAlnDetails r with
    | .error e => .error e
    | .ok info =>
      .ok { totalLen := a.totalLen + info.Len
            accSum := optAdd a.accSum info.Acc
            wAccSum := optAdd a.wAccSum info.WAcc
            nr := a.nr + 1 }
  else .ok a

/-- The record loop of `BamToolAccStats` (lines 330-339): each record is
scored (if mapped) and then forwarded to the output channel; a panic inside
`GetSamAlnDetails` kills the stage before the current record is forwarded.
Returns the forwarded records in order, with the final accumulator. -/
def accStatsLoop (a : AccAccum) : List SamRecord → Except String (List SamRecord × AccAccum)
  | [] => .ok ([], a)
  | r :: rs =>
    match accStatsStep a r with
    | .error e => .error e
    | .ok a2 =>
      match accStatsLoop a2 rs with
      | .error e => .error e
      | .ok (out, af) => .ok (r :: out, af)

/-- The two-column summary written at stream end (lines 340-343). -/
structure AccSummary where
  AccMean : Option Rat
  WeightedAccMean : Option Rat
deriving DecidableEq, Repr

/-- `BamToolAccStats` (lines 319-345) as a function of the input record
stream: run the loop, then compute `WeightedAcc = wAccSum / float64(totalLen)`
and `MeanAcc = accSum / nr` (lines 340-341) and emit the summary. -/
def BamToolAccStats (input : List SamRecord) :
    Except String (List SamRecord × AccAccum × AccSummary) :=
  match accStatsLoop accInit input with
  | .error e => .error e
  | .ok (out, a) =>
    .ok (out, a, ⟨optDivNat a.accSum a.nr, optDivNat a.wAccSum a.totalLen⟩)

/-! ## The AlnContext stage (`BamToolAlnContext`, lines 230-274)

The reference index (`RefWithFaidx.IdxSubSeq`, an external FASTA-index
library) is abstracted as a function from contig name and half-open
coordinate range to either a sub-sequence or a fatal error; the compiled Go
regular expressions are abstracted as boolean predicates on strings. -/

/-- The parameters read from the stage's configuration section
(lines 231-247): the shifts, and an optional compiled pattern per side
(`regStart`/`regEnd` stay `nil` when the key is absent). -/
structure AlnContextParams where
  leftShift : Int
  rightShift : Int
  regStart : Option (String → Bool)
  regEnd : Option (String → Bool)

/-- The end-side test of the record loop (lines 262-268): when a pattern is
configured, fetch the sub-sequence of the half-open window
`[endPos+leftShift, endPos+rightShift)` and drop the record (`false`) on a
match; an index error is fatal. -/
def alnContextEndCheck (idx : String → Int → Int → Except String String)
    (p : AlnContextParams) (r : SamRecord) : Except String Bool :=
  match p.regEnd with
  | none => .ok true
  | some re =>
    match idx r.refName (r.endPos + p.leftShift) (r.endPos + p.rightShift) with
    | .error e => .error e
    | .ok s => .ok (!(re s))

/-- The body of the record loop of `BamToolAlnContext` (lines 250-271):
test the start side first (window `[pos+leftShift, pos+rightShift)`,
lines 254-260), then the end side; `true` means the record is forwarded. -/
def alnContextStep (idx : String → Int → Int → Except String String)
    (p : AlnContextParams) (r : SamRecord) : Except String Bool :=
  match p.regStart with
  | none => alnContextEndCheck idx p r
  | some re =>
    match idx r.refName (r.pos + p.leftShift) (r.pos + p.rightShift) with
    | .error e => .error e
    | .ok s =>
      if re s then .ok false
      else alnContextEndCheck idx p r

/-- `BamToolAlnContext` (lines 230-274) as a function of the input record
stream: records whose step says `false` are skipped (`continue`), the rest
are forwarded unchanged in order. -/
def BamToolAlnContext (idx : String → Int → Int → Except String String)
    (p : AlnContextParams) : List SamRecord → Except String (List SamRecord)
  | [] => .ok []
  | r :: rs =>
    match alnContextStep idx p r with
    | .error e => .error e
    | .ok false => BamToolAlnContext idx p rs
    | .ok true =>
      match BamToolAlnContext idx p rs with
      | .error e => .error e
      | .ok out => .ok (r :: out)

/-! ## Channel capacities and boundary adapters (lines 81-142, 161-162) -/

/-- `chanCap := 5000` (line 161). -/
def chanCap : Nat := 5000

/-- `ioBuff := 1024 * 128` (line 162). -/
def ioBuff : Nat := 1024 * 128

/-- Capacity of the channel allocated by `NewBamReaderChan`
(line 82: `make(chan *sam.Record, cp)`). -/
def newBamReaderChanCap (cp : Nat) : Nat := cp

/-- Capacity of the channel allocated by `NewBamSinkChan`
(line 108: `make(chan *sam.Record, cp)`). -/
def newBamSinkChanCap (cp : Nat) : Nat := cp

/-- Capacity of the channel allocated by `NewBamWriterChan`
(line 121: `make(chan *sam.Record, buff)`).  The `cp` parameter of the
function is not used for the capacity. -/
def newBamWriterChanCap (cp buff : Nat) : Nat := buff

/-- Capacity of the stage-to-stage channels allocated by `BamToolbox`
(lines 188 and 216: `make(chan *sam.Record, chanCap)`). -/
def interStageChanCap : Nat := chanCap

/-- Reader channel capacity as `BamToolbox` requests it
(line 180: `NewBamReaderChan(inFile, chanCap, ioBuff, threads)`). -/
def bamToolboxReaderChanCap : Nat := newBamReaderChanCap chanCap

/-- Sink channel capacity as `BamToolbox` requests it
(line 183: `NewBamSinkChan(chanCap)`). -/
def bamToolboxSinkChanCap : Nat := newBamSinkChanCap chanCap

/-- Writer channel capacity as `BamToolbox` requests it
(line 185: `NewBamWriterChan(outFile, bamReader.Header(), chanCap, ioBuff, threads)`). -/
def bamToolboxWriterChanCap : Nat := newBamWriterChanCap chanCap ioBuff

/-- How a named file is opened by the Go `os` package. -/
inductive OpenMode where
  | readOnly
  | create
deriving DecidableEq, Repr

/-- The destination-opening step of `NewBamWriterChan` (lines 123-127):
`"-"` selects the standard output stream (`none`); any other name is opened
with `os.Open`, which opens an existing file read-only. -/
def newBamWriterChanOpen (outFile : String) : Option (String × OpenMode) :=
  if outFile = "-" then none
  else some (outFile, OpenMode.readOnly)

/-- The destination of the AccStats summary. -/
inductive TsvDest where
  | stderrDest
  | fileDest (path : String)
  | invalidDest
deriving DecidableEq, Repr

/-- The Tsv-opening step of `BamToolAccStats` (lines 324-329): `tsvFh`
starts as the standard error stream; for a named path `os.Create` is called
and its error is never checked, so a failing create leaves a nil file handle
(`invalidDest`).  `createOk` says whether `os.Create` succeeds on the path.
The function is total: no branch aborts. -/
def accStatsOpenTsv (tsvFile : String) (createOk : Bool) : TsvDest :=
  if tsvFile = "-" then .stderrDest
  else if createOk then .fileDest tsvFile
  else .invalidDest

/-- Whether the summary `WriteString` calls of lines 342-343 actually store
the summary: on a nil `*os.File` (failed create) `WriteString` returns
`os.ErrInvalid`, which the code ignores, so nothing is written. -/
def tsvWriteSucceeds : TsvDest → Bool
  | .invalidDest => false
  | _ => true

/-! ## The orchestrator (`BamToolbox`, lines 144-223)

The channel wiring of lines 188-219 is modelled over symbolic channel
identities: the reader's channel, the terminal consumer's channel
(`lastOut`, the writer's or sink's channel chosen at lines 181-186), and
the fresh channels allocated with `make` (numbered by allocation order,
`fresh 0` being the `outChan` of line 188). -/

/-- Identity of a record channel in one pipeline run. -/
inductive ChanId where
  | reader
  | lastOut
  | fresh (n : Nat)
deriving DecidableEq, Repr

/-- One `go wt.Use(params)` launch (line 217) with the fields of its
`BamToolParams` that concern the topology: tool name, zero-based rank, input
channel, output channel. -/
structure Launch where
  tool : String
  rank : Nat
  inChan : ChanId
  outChan : ChanId
deriving DecidableEq, Repr

/-- The reserved keys (`paramFields`, lines 164-166): only `"Sink"`. -/
def paramFields : List String := ["Sink"]

/-- The registered tool names of `NewToolshed` (lines 72-79). -/
def toolshedNames : List String := ["AlnContext", "AccStats", "help"]

/-- The key-filtering loop of lines 190-195: the top-level keys that are not
reserved, in document order. -/
def clearKeysOf (tkeys : List String) : List String :=
  tkeys.filter (fun k => !(paramFields.contains k))

/-- The launch loop of `BamToolbox` (lines 196-219).  `total` is
`len(clearKeys)`; `nextIn`/`nextOut` are the loop-carried channel variables
(initialized at line 189 to the reader's channel and the fresh `outChan` of
line 188).  Per iteration: an unknown tool name is fatal (`log.Fatal`,
line 200) before anything else in the iteration; the last rank redirects
`nextOut` to `lastOut` (lines 202-204); the launch is recorded, `nextIn`
becomes the launched stage's output and a fresh channel is allocated
(lines 215-216).  Returns the launches made, and the name in the fatal
message when the loop aborted. -/
def wireLoop (shed : List String) (total : Nat) :
    List String → Nat → ChanId → ChanId → List Launch × Option String
  | [], _, _, _ => ([], none)
  | k :: ks, rank, nextIn, nextOut =>
    if shed.contains k then
      let out := if rank = total - 1 then ChanId.lastOut else nextOut
      let rest := wireLoop shed total ks (rank + 1) out (ChanId.fresh (rank + 1))
      (⟨k, rank, nextIn, out⟩ :: rest.1, rest.2)
    else ([], some k)

/-- The stage-launching phase of `BamToolbox` for a non-listing
configuration: filter out reserved keys (lines 190-195) and run the launch
loop (lines 196-219) from the reader's channel and the first fresh channel. -/
def wireStages (shed : List String) (tkeys : List String) :
    List Launch × Option String :=
  let ck := clearKeysOf tkeys
  wireLoop shed ck.length ck 0 ChanId.reader (ChanId.fresh 0)

/-! ## Specification-side definitions

These follow the claims' wording (M/I/D totals as filtered sums, the
accuracy formula, per-stream aggregates) and are compared against the
code embedding above. -/

/-- Does a CIGAR operation count towards M (match, sequence-match,
sequence-mismatch)? -/
def isMOp (op : CigarOp) : Bool :=
  op.type == .cigarMatch || op.type == .cigarEqual || op.type == .cigarMismatch

/-- M: total length of match/sequence-match/sequence-mismatch operations. -/
def specM (c : List CigarOp) : Nat :=
  ((c.filter isMOp).map CigarOp.len).sum

/-- I: total insertion length. -/
def specI (c : List CigarOp) : Nat :=
  ((c.filter (fun op => op.type == .cigarInsertion)).map CigarOp.len).sum

/-- D: total deletion length. -/
def specD (c : List CigarOp) : Nat :=
  ((c.filter (fun op => op.type == .cigarDeletion)).map CigarOp.len).sum

/-- Total skipped-region length (tracked by the code but excluded from L). -/
def specSkip (c : List CigarOp) : Nat :=
  ((c.filter (fun op => op.type == .cigarSkipped)).map CigarOp.len).sum

/-- Aligned length L = M + I + D. -/
def specL (c : List CigarOp) : Nat :=
  specM c + specI c + specD c

/-- The record's edit-distance tag decoded as a normalized integer, when
present and integer-valued. -/
def nmOf (r : SamRecord) : Option Int :=
  (recTag r "NM").bind fun a =>
    match decodeNM a with
    | .ok v => some v
    | .error _ => none

/-- The decoded edit distance, defaulting to 0 (only used under an
`(nmOf r).isSome` hypothesis). -/
def nmD (r : SamRecord) : Int :=
  (nmOf r).getD 0

/-- The claim's accuracy formula: Accuracy = (1 − E/L) × 100. -/
def claimAcc (e : Int) (l : Nat) : Rat :=
  (1 - (e : Rat) / (l : Rat)) * 100

/-- The claim's per-record accuracy. -/
def claimRecAcc (r : SamRecord) : Rat :=
  claimAcc (nmD r) (specL r.cigar)

/-- The mapped sub-stream of a record stream. -/
def mappedOf (l : List SamRecord) : List SamRecord :=
  l.filter GetSamMapped

/-- Σ(L) over the mapped records of a stream. -/
def sumL (l : List SamRecord) : Nat :=
  ((mappedOf l).map (fun r => specL r.cigar)).sum

/-- Σ(Accuracy) over the mapped records of a stream. -/
def sumAcc (l : List SamRecord) : Rat :=
  ((mappedOf l).map claimRecAcc).sum

/-- Σ(Accuracy × L) over the mapped records of a stream. -/
def sumWAcc (l : List SamRecord) : Rat :=
  ((mappedOf l).map (fun r => claimRecAcc r * (specL r.cigar : Rat))).sum

/-! ## CIGAR-fold lemmas -/

theorem cigarStep_eq (t : CigarTotals) (op : CigarOp) :
    cigarStep t op =
      ⟨t.mm + (if isMOp op then op.len else 0),
       t.ins + (if op.type == .cigarInsertion then op.len else 0),
       t.del + (if op.type == .cigarDeletion then op.len else 0),
       t.skip + (if op.type == .cigarSkipped then op.len else 0)⟩ := by
  obtain ⟨ty, len⟩ := op
  cases ty <;> simp [cigarStep, isMOp]

theorem cigarTotals_foldl (c : List CigarOp) (t : CigarTotals) :
    c.foldl cigarStep t =
      ⟨t.mm + specM c, t.ins + specI c, t.del + specD c, t.skip + specSkip c⟩ := by
  induction c generalizing t with
  | nil => simp [specM, specI, specD, specSkip]
  | cons op ops ih =>
    rw [List.foldl_cons, ih, cigarStep_eq]
    simp only [specM, specI, specD, specSkip, List.filter_cons]
    cases hM : isMOp op <;>
      cases hI : op.type == .cigarInsertion <;>
        cases hD : op.type == .cigarDeletion <;>
          cases hS : op.type == .cigarSkipped <;>
            simp [hM, hI, hD, hS, Nat.add_assoc]

theorem cigarTotals_eq (c : List CigarOp) :
    cigarTotals c = ⟨specM c, specI c, specD c, specSkip c⟩ := by
  simpa using cigarTotals_foldl c ⟨0, 0, 0, 0⟩

/-- On a record whose NM tag is present and integer-decodable,
`GetSamAlnDetails` returns the detail record built from the spec-side
CIGAR totals and `accExpr`. -/
theorem GetSamAlnDetails_eq_of_nm (r : SamRecord) (h : (nmOf r).isSome) :
    GetSamAlnDetails r =
      .ok { Mismatch := nmD r
            MatchMismatch := specM r.cigar
            Insertion := specI r.cigar
            Deletion := specD r.cigar
            Skip := specSkip r.cigar
            Len := specL r.cigar
            Acc := accExpr (nmD r) (specL r.cigar)
            WAcc := (accExpr (nmD r) (specL r.cigar)).map
              (fun a => a * ((specL r.cigar : Nat) : Rat)) } := by
  unfold GetSamAlnDetails
  unfold nmOf nmD at *
  cases htag : recTag r "NM" with
  | none => simp [htag, nmOf] at h
  | some aux =>
    simp only [htag] at h ⊢
    cases hdec : decodeNM aux with
    | error e => simp [htag, hdec, nmOf, Option.bind] at h
    | ok v =>
      simp only [hdec]
      rw [cigarTotals_eq]
      simp [nmOf, htag, hdec, specL]

/-! ## AccStats loop lemmas -/

/-- A record stream is well-scored when every mapped record carries a
decodable NM tag and has positive aligned length. -/
def WellScored (l : List SamRecord) : Prop :=
  ∀ r ∈ l, GetSamMapped r = true → (nmOf r).isSome = true ∧ 0 < specL r.cigar

theorem accExpr_pos_len (e : Int) (l : Nat) (h : 0 < l) :
    accExpr e l = some (claimAcc e l) := by
  unfold accExpr claimAcc
  rw [if_neg (Nat.pos_iff_ne_zero.mp h)]

theorem accStatsLoop_wellScored (l : List SamRecord) :
    ∀ (t : Nat) (x y : Rat) (n : Nat), WellScored l →
      accStatsLoop ⟨t, some x, some y, n⟩ l =
        .ok (l, ⟨t + sumL l, some (x + sumAcc l), some (y + sumWAcc l),
                 n + (mappedOf l).length⟩) := by
  induction l with
  | nil =>
    intro t x y n _
    simp [accStatsLoop, sumL, sumAcc, sumWAcc, mappedOf]
  | cons r rs ih =>
    intro t x y n hws
    have hws_rs : WellScored rs := fun q hq => hws q (List.mem_cons_of_mem r hq)
    unfold accStatsLoop accStatsStep
    cases hm : GetSamMapped r with
    | false =>
      rw [if_neg (by simp [hm])]
      dsimp only
      rw [ih t x y n hws_rs]
      simp [sumL, sumAcc, sumWAcc, mappedOf, List.filter_cons, hm]
    | true =>
      obtain ⟨hnm, hlen⟩ := hws r (List.mem_cons_self r rs) hm
      rw [if_pos rfl]
      rw [GetSamAlnDetails_eq_of_nm r hnm]
      rw [accExpr_pos_len _ _ hlen]
      simp only [Option.map_some', optAdd]
      rw [ih (t + specL r.cigar)
            (x + claimAcc (nmD r) (specL r.cigar))
            (y + claimAcc (nmD r) (specL r.cigar) * ((specL r.cigar : Nat) : Rat))
            (n + 1) hws_rs]
      have hfilter : mappedOf (r :: rs) = r :: mappedOf rs := by
        simp [mappedOf, List.filter_cons, hm]
      simp only [sumL, sumAcc, sumWAcc, hfilter, List.map_cons, List.sum_cons,
        List.length_cons, claimRecAcc, Except.ok.injEq, Prod.mk.injEq,
        AccAccum.mk.injEq, Option.some.injEq, true_and]
      refine ⟨by omega, by ring, by ring, by omega⟩


theorem sumL_pos (l : List SamRecord) (hws : WellScored l)
    (hne : mappedOf l ≠ []) : 0 < sumL l := by
  cases hmp : mappedOf l with
  | nil => exact absurd hmp hne
  | cons r rest =>
    have hr : r ∈ mappedOf l := by rw [hmp]; exact List.mem_cons_self r rest
    have hrl : r ∈ l := List.mem_of_mem_filter hr
    have hrm : GetSamMapped r = true := List.of_mem_filter hr
    have hpos := (hws r hrl hrm).2
    unfold sumL
    rw [hmp]
    simp only [List.map_cons, List.sum_cons]
    omega

/-- C1.  For every mapped record of a stream whose NM tag is integer-decodable
and whose aligned length is positive, AccStats derives M, I, D from the CIGAR
(the filtered-sum formulation of the claim), L = M+I+D with the skipped
length excluded, Accuracy = (1 − E/L) × 100, and the weighted contribution
Accuracy × L; at end of stream it reports
WeightedMean = Σ(Accuracy×L) / Σ(L) and
UnweightedMean = Σ(Accuracy) / (count of mapped records). -/
theorem accStats_aggregate_spec (input : List SamRecord)
    (hws : WellScored input) (hne : mappedOf input ≠ []) :
    (∀ r ∈ input, GetSamMapped r = true →
      GetSamAlnDetails r =
        .ok { Mismatch := nmD r
              MatchMismatch := specM r.cigar
              Insertion := specI r.cigar
              Deletion := specD r.cigar
              Skip := specSkip r.cigar
              Len := specM r.cigar + specI r.cigar + specD r.cigar
              Acc := some (claimAcc (nmD r) (specL r.cigar))
              WAcc := some (claimAcc (nmD r) (specL r.cigar) * (specL r.cigar : Rat)) }) ∧
    BamToolAccStats input =
      .ok (input,
           ⟨sumL input, some (sumAcc input), some (sumWAcc input),
            (mappedOf input).length⟩,
           ⟨some (sumAcc input / ((mappedOf input).length : Rat)),
            some (sumWAcc input / (sumL input : Rat))⟩) := by
  constructor
  · intro r hr hm
    obtain ⟨hnm, hlen⟩ := hws r hr hm
    rw [GetSamAlnDetails_eq_of_nm r hnm, accExpr_pos_len _ _ hlen]
    simp [specL]
  · unfold BamToolAccStats accInit
    rw [accStatsLoop_wellScored input 0 0 0 0 hws]
    have hnr : (mappedOf input).length ≠ 0 := by
      intro h
      exact hne (List.length_eq_zero.mp h)
    have hsl : sumL input ≠ 0 := Nat.pos_iff_ne_zero.mp (sumL_pos input hws hne)
    simp [optDivNat, hnr, hsl]

/-- Concrete records used in the witnesses: a mapped record with CIGAR `10=`
and NM = 1, and an unmapped record. -/
def rMapped : SamRecord :=
  ⟨"chr1", 0, 10, 0, [⟨.cigarEqual, 10⟩], [("NM", .vUInt8 1)]⟩

/-- An unmapped record (unmapped flag set). -/
def rUnmapped : SamRecord :=
  ⟨"chr1", 0, 0, 4, [], []⟩

/-- Witness for C1 at the spec's §8 example stream: two mapped `10=`/NM=1
records plus one unmapped record. -/
theorem accStats_aggregate_spec_witness :
    (∀ r ∈ [rMapped, rMapped, rUnmapped], GetSamMapped r = true →
      GetSamAlnDetails r =
        .ok { Mismatch := nmD r
              MatchMismatch := specM r.cigar
              Insertion := specI r.cigar
              Deletion := specD r.cigar
              Skip := specSkip r.cigar
              Len := specM r.cigar + specI r.cigar + specD r.cigar
              Acc := some (claimAcc (nmD r) (specL r.cigar))
              WAcc := some (claimAcc (nmD r) (specL r.cigar) * (specL r.cigar : Rat)) }) ∧
    BamToolAccStats [rMapped, rMapped, rUnmapped] =
      .ok ([rMapped, rMapped, rUnmapped],
           ⟨sumL [rMapped, rMapped, rUnmapped],
            some (sumAcc [rMapped, rMapped, rUnmapped]),
            some (sumWAcc [rMapped, rMapped, rUnmapped]),
            (mappedOf [rMapped, rMapped, rUnmapped]).length⟩,
           ⟨some (sumAcc [rMapped, rMapped, rUnmapped] /
              ((mappedOf [rMapped, rMapped, rUnmapped]).length : Rat)),
            some (sumWAcc [rMapped, rMapped, rUnmapped] /
              (sumL [rMapped, rMapped, rUnmapped] : Rat))⟩) :=
  accStats_aggregate_spec [rMapped, rMapped, rUnmapped]
    (by unfold WellScored; decide) (by decide)

/-- Inversion of one successful iteration of the AccStats loop. -/
theorem accStatsLoop_cons_inv (a : AccAccum) (r : SamRecord)
    (rs out : List SamRecord) (af : AccAccum)
    (h : accStatsLoop a (r :: rs) = .ok (out, af)) :
    ∃ a2 out2, accStatsStep a r = .ok a2 ∧
      accStatsLoop a2 rs = .ok (out2, af) ∧ out = r :: out2 := by
  unfold accStatsLoop at h
  cases hstep : accStatsStep a r with
  | error e =>
    rw [hstep] at h
    dsimp only at h
    exact Except.noConfusion h
  | ok a2 =>
    rw [hstep] at h
    dsimp only at h
    cases hrec : accStatsLoop a2 rs with
    | error e =>
      rw [hrec] at h
      dsimp only at h
      exact Except.noConfusion h
    | ok p =>
      obtain ⟨out2, af2⟩ := p
      rw [hrec] at h
      dsimp only at h
      simp only [Except.ok.injEq, Prod.mk.injEq] at h
      exact ⟨a2, out2, rfl, by rw [hrec, h.2], h.1.symm⟩

theorem accStatsLoop_out (l : List SamRecord) :
    ∀ (a : AccAccum) (out : List SamRecord) (af : AccAccum),
      accStatsLoop a l = .ok (out, af) → out = l := by
  induction l with
  | nil =>
    intro a out af h
    simp [accStatsLoop] at h
    exact h.1
  | cons r rs ih =>
    intro a out af h
    obtain ⟨a2, out2, _, hrec, hout⟩ := accStatsLoop_cons_inv a r rs out af h
    rw [hout, ih a2 out2 af hrec]

theorem accStatsStep_unmapped (a : AccAccum) (r : SamRecord)
    (hm : GetSamMapped r = false) : accStatsStep a r = .ok a := by
  unfold accStatsStep
  rw [if_neg (by simp [hm])]

theorem accStatsLoop_mapped_only (l : List SamRecord) :
    ∀ (a : AccAccum) (out : List SamRecord) (af : AccAccum),
      accStatsLoop a l = .ok (out, af) →
      ∃ out2, accStatsLoop a (mappedOf l) = .ok (out2, af) := by
  induction l with
  | nil =>
    intro a out af h
    simp [accStatsLoop, mappedOf] at h ⊢
    exact h.2
  | cons r rs ih =>
    intro a out af h
    obtain ⟨a2, out2, hstep, hrec, hout⟩ := accStatsLoop_cons_inv a r rs out af h
    obtain ⟨out3, hout3⟩ := ih a2 out2 af hrec
    cases hm : GetSamMapped r with
    | false =>
      have ha2 : a2 = a := by
        rw [accStatsStep_unmapped a r hm] at hstep
        exact (Except.ok.injEq _ _).mp hstep.symm
      have hfilter : mappedOf (r :: rs) = mappedOf rs := by
        simp [mappedOf, List.filter_cons, hm]
      rw [hfilter, ← ha2]
      exact ⟨out3, hout3⟩
    | true =>
      have hfilter : mappedOf (r :: rs) = r :: mappedOf rs := by
        simp [mappedOf, List.filter_cons, hm]
      rw [hfilter]
      refine ⟨r :: out3, ?_⟩
      unfold accStatsLoop
      rw [hstep]
      dsimp only
      rw [hout3]

theorem accStatsLoop_nr (l : List SamRecord) :
    ∀ (a : AccAccum) (out : List SamRecord) (af : AccAccum),
      accStatsLoop a l = .ok (out, af) →
      af.nr = a.nr + (mappedOf l).length := by
  induction l with
  | nil =>
    intro a out af h
    simp [accStatsLoop] at h
    rw [← h.2]
    simp [mappedOf]
  | cons r rs ih =>
    intro a out af h
    obtain ⟨a2, out2, hstep, hrec, _⟩ := accStatsLoop_cons_inv a r rs out af h
    have hih := ih a2 out2 af hrec
    cases hm : GetSamMapped r with
    | false =>
      rw [accStatsStep_unmapped a r hm] at hstep
      have ha2 : a2 = a := (Except.ok.injEq _ _).mp hstep.symm
      have hfilter : mappedOf (r :: rs) = mappedOf rs := by
        simp [mappedOf, List.filter_cons, hm]
      rw [hfilter, hih, ha2]
    | true =>
      unfold accStatsStep at hstep
      rw [if_pos (by simp [hm])] at hstep
      have hnr2 : a2.nr = a.nr + 1 := by
        cases hd : GetSamAlnDetails r with
        | error e =>
          rw [hd] at hstep
          exact Except.noConfusion hstep
        | ok info =>
          rw [hd] at hstep
          dsimp only at hstep
          have := (Except.ok.injEq _ _).mp hstep
          rw [← this]
      have hfilter : mappedOf (r :: rs) = r :: mappedOf rs := by
        simp [mappedOf, List.filter_cons, hm]
      rw [hfilter, hih, hnr2]
      simp [Nat.add_assoc, Nat.add_comm 1]

/-- C8.  AccStats forwards every input record — mapped or unmapped — to its
output unchanged, exactly once, in arrival order; a record is mapped iff its
unmapped status flag is clear; and only mapped records contribute to the
accumulated totals (the final accumulator is exactly the accumulator of the
mapped sub-stream, and the mapped count equals the length of that
sub-stream). -/
theorem accStats_forwarding_spec (input out : List SamRecord)
    (a : AccAccum) (s : AccSummary)
    (h : BamToolAccStats input = .ok (out, a, s)) :
    out = input ∧
    (∀ r : SamRecord, GetSamMapped r = true ↔ r.flags &&& samUnmapped = 0) ∧
    (∃ out2, accStatsLoop accInit (mappedOf input) = .ok (out2, a)) ∧
    a.nr = (mappedOf input).length := by
  have hloop : accStatsLoop accInit input = .ok (out, a) := by
    unfold BamToolAccStats at h
    cases hl : accStatsLoop accInit input with
    | error e =>
      rw [hl] at h
      dsimp only at h
      exact Except.noConfusion h
    | ok p =>
      obtain ⟨out2, a2⟩ := p
      rw [hl] at h
      dsimp only at h
      simp only [Except.ok.injEq, Prod.mk.injEq] at h
      rw [h.1, h.2.1]
  refine ⟨accStatsLoop_out input accInit out a hloop, ?_, ?_, ?_⟩
  · intro r
    unfold GetSamMapped
    exact ⟨fun h2 => by simpa using h2, fun h2 => by simp [h2]⟩
  · exact accStatsLoop_mapped_only input accInit out a hloop
  · have := accStatsLoop_nr input accInit out a hloop
    simpa [accInit] using this

/-- The accumulator reached by AccStats on the witness stream
`[rMapped, rUnmapped]`, in the form produced by `accStatsLoop_wellScored`. -/
def accWitnessA : AccAccum :=
  ⟨0 + sumL [rMapped, rUnmapped], some (0 + sumAcc [rMapped, rUnmapped]),
   some (0 + sumWAcc [rMapped, rUnmapped]),
   0 + (mappedOf [rMapped, rUnmapped]).length⟩

/-- The summary emitted by AccStats on the witness stream. -/
def accWitnessS : AccSummary :=
  ⟨optDivNat accWitnessA.accSum accWitnessA.nr,
   optDivNat accWitnessA.wAccSum accWitnessA.totalLen⟩

theorem accWitness_run :
    BamToolAccStats [rMapped, rUnmapped] =
      .ok ([rMapped, rUnmapped], accWitnessA, accWitnessS) := by
  unfold BamToolAccStats accInit accWitnessA accWitnessS
  rw [accStatsLoop_wellScored [rMapped, rUnmapped] 0 0 0 0
    (by unfold WellScored; decide)]
  rfl

/-- Witness for C8 at a stream of one mapped and one unmapped record. -/
theorem accStats_forwarding_spec_witness :
    [rMapped, rUnmapped] = [rMapped, rUnmapped] ∧
    (∀ r : SamRecord, GetSamMapped r = true ↔ r.flags &&& samUnmapped = 0) ∧
    (∃ out2, accStatsLoop accInit (mappedOf [rMapped, rUnmapped]) =
      .ok (out2, accWitnessA)) ∧
    accWitnessA.nr = (mappedOf [rMapped, rUnmapped]).length :=
  accStats_forwarding_spec [rMapped, rUnmapped] [rMapped, rUnmapped]
    accWitnessA accWitnessS accWitness_run

/-- A mapped record whose aligned length is 0: the CIGAR holds only a
soft-clip, and the NM tag is present with value 0. -/
def rZeroLen : SamRecord :=
  ⟨"chr1", 0, 0, 0, [⟨.cigarSoftClipped, 5⟩], [("NM", .vUInt8 0)]⟩

theorem optAdd_none (a : Option Rat) : optAdd a none = none := by
  cases a <;> rfl

/-- C9, counterexample.  On a mapped record with aligned length 0 and a
decodable NM tag, the accuracy computation of `GetSamAlnDetails` reaches the
division with a zero denominator unguarded: the computed `Acc` is the
non-finite IEEE value (modelled `none`), not a finite, contracted value —
refuting the claim that the division is guarded or given an explicit
contract. -/
theorem accStats_zero_len_counterexample :
    GetSamMapped rZeroLen = true ∧
    specL rZeroLen.cigar = 0 ∧
    (nmOf rZeroLen).isSome = true ∧
    GetSamAlnDetails rZeroLen = .ok ⟨0, 0, 0, 0, 0, 0, none, none⟩ := by
  decide

/-- C9, amended.  For every mapped record with a decodable NM tag and aligned
length 0, `GetSamAlnDetails` returns normally (no panic: the outcome is
defined in the sense that the stage does not fail), but the division is
unguarded: the accuracy and its weighted contribution are the non-finite IEEE
value (`none`), and the record still contributes to the accumulator,
poisoning the running sums.  No guard or explicit contract exists. -/
theorem accStats_zero_len_amended (r : SamRecord) (a : AccAccum)
    (hm : GetSamMapped r = true) (hnm : (nmOf r).isSome = true)
    (hlen : specL r.cigar = 0) :
    (∃ d, GetSamAlnDetails r = .ok d ∧ d.Len = 0 ∧ d.Acc = none ∧
      d.WAcc = none) ∧
    accStatsStep a r = .ok ⟨a.totalLen + 0, none, none, a.nr + 1⟩ := by
  have hd := GetSamAlnDetails_eq_of_nm r hnm
  rw [hlen] at hd
  have hnone : accExpr (nmD r) 0 = none := rfl
  rw [hnone, Option.map_none'] at hd
  refine ⟨⟨_, hd, rfl, rfl, rfl⟩, ?_⟩
  unfold accStatsStep
  rw [if_pos (by simp [hm]), hd]
  dsimp only
  rw [optAdd_none, optAdd_none]

/-- Witness for the amended C9 at the concrete zero-aligned-length record. -/
theorem accStats_zero_len_amended_witness :
    (∃ d, GetSamAlnDetails rZeroLen = .ok d ∧ d.Len = 0 ∧ d.Acc = none ∧
      d.WAcc = none) ∧
    accStatsStep accInit rZeroLen =
      .ok ⟨accInit.totalLen + 0, none, none, accInit.nr + 1⟩ :=
  accStats_zero_len_amended rZeroLen accInit (by decide) (by decide) (by decide)

/-! ## Equivalence of the two accuracy implementations -/

theorem decodeNMAcc_eq (a : AuxValue) : decodeNMAcc a = decodeNM a := by
  cases a <;> rfl

theorem cigarStepAcc_eq : cigarStepAcc = cigarStep := by
  funext t op
  obtain ⟨ty, len⟩ := op
  cases ty <;> rfl

/-- C10.  For every record, the standalone accuracy function `GetSamAcc`
computes exactly the `Acc` field of `GetSamAlnDetails` (in particular, on
every record with a present, integer-decodable NM tag the two independent
implementations of the accuracy computation agree; and they also agree on
which records they panic on). -/
theorem getSamAcc_refines_details (r : SamRecord) :
    GetSamAcc r = (GetSamAlnDetails r).map AlnDetails.Acc := by
  unfold GetSamAcc GetSamAlnDetails
  rw [cigarStepAcc_eq]
  cases htag : recTag r "NM" with
  | none => rfl
  | some aux =>
    dsimp only
    rw [decodeNMAcc_eq]
    cases hdec : decodeNM aux with
    | error e => rfl
    | ok v => rfl

/-! ## AlnContext theorems -/

/-- Whether an `Except` computation succeeded. -/
def exceptIsOk {ε α : Type} : Except ε α → Bool
  | .ok _ => true
  | .error _ => false

/-- The claim's per-side test: a side matches iff its pattern is configured
and the pattern holds on the reference sub-sequence of the half-open window
`[base + LeftShift, base + RightShift)`; an absent pattern never matches
(the side's test is disabled). -/
def sideMatch (idx : String → Int → Int → Except String String)
    (p : AlnContextParams) (r : SamRecord) (base : Int)
    (reg : Option (String → Bool)) : Bool :=
  match reg with
  | none => false
  | some re =>
    match idx r.refName (base + p.leftShift) (base + p.rightShift) with
    | .ok s => re s
    | .error _ => false

/-- The claim's keep predicate: a record is forwarded iff neither configured
side matches. -/
def alnKeep (idx : String → Int → Int → Except String String)
    (p : AlnContextParams) (r : SamRecord) : Bool :=
  !(sideMatch idx p r r.pos p.regStart) &&
  !(sideMatch idx p r r.endPos p.regEnd)

theorem alnContextEndCheck_ok (idx : String → Int → Int → Except String String)
    (p : AlnContextParams) (r : SamRecord)
    (h : exceptIsOk (alnContextEndCheck idx p r) = true) :
    alnContextEndCheck idx p r = .ok (!(sideMatch idx p r r.endPos p.regEnd)) := by
  unfold alnContextEndCheck at h ⊢
  unfold sideMatch
  cases hre : p.regEnd with
  | none => rfl
  | some re =>
    rw [hre] at h
    dsimp only at h ⊢
    cases hfetch : idx r.refName (r.endPos + p.leftShift) (r.endPos + p.rightShift) with
    | error e =>
      rw [hfetch] at h
      simp [exceptIsOk] at h
    | ok s =>
      rfl

theorem alnContextStep_ok (idx : String → Int → Int → Except String String)
    (p : AlnContextParams) (r : SamRecord)
    (h : exceptIsOk (alnContextStep idx p r) = true) :
    alnContextStep idx p r = .ok (alnKeep idx p r) := by
  have hkeep : alnKeep idx p r =
      (!(sideMatch idx p r r.pos p.regStart) &&
       !(sideMatch idx p r r.endPos p.regEnd)) := rfl
  unfold alnContextStep at h ⊢
  cases hrs : p.regStart with
  | none =>
    rw [hrs] at h
    dsimp only at h ⊢
    rw [alnContextEndCheck_ok idx p r h, hkeep]
    have hfalse : sideMatch idx p r r.pos p.regStart = false := by
      unfold sideMatch
      rw [hrs]
    rw [hfalse]
    rfl
  | some re =>
    rw [hrs] at h
    dsimp only at h ⊢
    cases hfetch : idx r.refName (r.pos + p.leftShift) (r.pos + p.rightShift) with
    | error e =>
      rw [hfetch] at h
      simp [exceptIsOk] at h
    | ok s =>
      dsimp only at h ⊢
      have hstartm : sideMatch idx p r r.pos p.regStart = re s := by
        unfold sideMatch
        rw [hrs, hfetch]
      cases hre : re s with
      | true =>
        rw [hkeep, hstartm, hre]
        rw [if_pos rfl]
        rfl
      | false =>
        rw [hkeep, hstartm, hre]
        rw [if_neg (by simp [hre])]
        rw [hfetch] at h
        dsimp only at h
        rw [hre] at h
        simp only [Bool.false_eq_true, if_false] at h
        rw [alnContextEndCheck_ok idx p r h]
        simp

/-- C2.  When no reference-index fetch made by the stage fails, AlnContext
forwards exactly the records for which no configured side matches — each
side tested on the half-open window `[start/end + LeftShift, start/end +
RightShift)` of the reference, a record being dropped if either configured
side matches, forwarded unchanged otherwise, and an absent pattern disabling
that side's test (the output is the input filtered by `alnKeep`, in order,
records unchanged). -/
theorem alnContext_filter_spec (idx : String → Int → Int → Except String String)
    (p : AlnContextParams) (input : List SamRecord)
    (h : ∀ r ∈ input, exceptIsOk (alnContextStep idx p r) = true) :
    BamToolAlnContext idx p input = .ok (input.filter (alnKeep idx p)) := by
  induction input with
  | nil => rfl
  | cons r rs ih =>
    have hr := h r (List.mem_cons_self r rs)
    have hstep := alnContextStep_ok idx p r hr
    have htail := ih (fun q hq => h q (List.mem_cons_of_mem r hq))
    unfold BamToolAlnContext
    rw [hstep]
    cases hk : alnKeep idx p r with
    | false =>
      dsimp only
      rw [htail, List.filter_cons, if_neg (by simp [hk])]
    | true =>
      dsimp only
      rw [htail, List.filter_cons, if_pos (by simp [hk])]

/-- The toy reference used by the C2 witness. -/
def refSeq : String := "ACGTACGT"

/-- A concrete reference index over `refSeq` for contig `chr1`: half-open
sub-sequence extraction with a fatal error out of bounds. -/
def testIdx (chrom : String) (s e : Int) : Except String String :=
  if chrom = "chr1" ∧ 0 ≤ s ∧ s ≤ e ∧ e ≤ 8 then
    .ok ((refSeq.drop s.toNat).take (e - s).toNat)
  else .error "out of bounds"

/-- Concrete AlnContext parameters for the witness: LeftShift 0,
RightShift 5, start pattern matching exactly "ACGTA", no end pattern. -/
def testParams : AlnContextParams :=
  ⟨0, 5, some (fun s => s == "ACGTA"), none⟩

/-- Witness record at start position 0: start window [0,5) reads "ACGTA". -/
def rCtx0 : SamRecord := ⟨"chr1", 0, 3, 0, [], []⟩

/-- Witness record at start position 1: start window [1,6) reads "CGTAC". -/
def rCtx1 : SamRecord := ⟨"chr1", 1, 3, 0, [], []⟩

/-- Witness for C2: the record whose start flank matches the pattern is
dropped, the other is forwarded unchanged. -/
theorem alnContext_filter_spec_witness :
    BamToolAlnContext testIdx testParams [rCtx0, rCtx1] =
      .ok ([rCtx0, rCtx1].filter (alnKeep testIdx testParams)) :=
  alnContext_filter_spec testIdx testParams [rCtx0, rCtx1] (by decide)

/-! ## Orchestrator wiring lemmas -/

theorem wireLoop_tools (shed : List String) (total : Nat) (ks : List String) :
    ∀ (rank : Nat) (nIn nOut : ChanId),
      (∀ k ∈ ks, shed.contains k = true) →
      (wireLoop shed total ks rank nIn nOut).1.map Launch.tool = ks ∧
      (wireLoop shed total ks rank nIn nOut).2 = none := by
  induction ks with
  | nil => intro rank nIn nOut _; exact ⟨rfl, rfl⟩
  | cons k ks ih =>
    intro rank nIn nOut h
    have hk := h k (List.mem_cons_self k ks)
    unfold wireLoop
    rw [if_pos hk]
    dsimp only
    have hrest := ih (rank + 1)
      (if rank = total - 1 then ChanId.lastOut else nOut)
      (ChanId.fresh (rank + 1))
      (fun q hq => h q (List.mem_cons_of_mem k hq))
    exact ⟨by rw [List.map_cons, hrest.1], hrest.2⟩

theorem wireLoop_head (shed : List String) (total : Nat) (k : String)
    (ks : List String) (rank : Nat) (nIn nOut : ChanId)
    (hk : shed.contains k = true) :
    (wireLoop shed total (k :: ks) rank nIn nOut).1.head? =
      some ⟨k, rank, nIn, if rank = total - 1 then ChanId.lastOut else nOut⟩ := by
  unfold wireLoop
  rw [if_pos hk]
  rfl

theorem wireLoop_chain (shed : List String) (total : Nat) (ks : List String) :
    ∀ (rank : Nat) (nIn nOut : ChanId),
      (∀ k ∈ ks, shed.contains k = true) →
      List.Chain' (fun a b => b.inChan = a.outChan)
        (wireLoop shed total ks rank nIn nOut).1 := by
  induction ks with
  | nil => intro rank nIn nOut _; exact List.chain'_nil
  | cons k ks ih =>
    intro rank nIn nOut h
    have hk := h k (List.mem_cons_self k ks)
    have htail : ∀ q ∈ ks, shed.contains q = true :=
      fun q hq => h q (List.mem_cons_of_mem k hq)
    unfold wireLoop
    rw [if_pos hk]
    dsimp only
    rw [List.chain'_cons']
    refine ⟨?_, ih (rank + 1) _ _ htail⟩
    intro b hb
    cases ks with
    | nil => simp [wireLoop] at hb
    | cons k2 ks2 =>
      rw [wireLoop_head shed total k2 ks2 (rank + 1) _ _
        (htail k2 (List.mem_cons_self k2 ks2))] at hb
      simp only [Option.mem_def, Option.some.injEq] at hb
      rw [← hb]

theorem wireLoop_last (shed : List String) (total : Nat) (ks : List String) :
    ∀ (rank : Nat) (nIn nOut : ChanId),
      (∀ k ∈ ks, shed.contains k = true) →
      rank + ks.length = total → ks ≠ [] →
      ((wireLoop shed total ks rank nIn nOut).1.map Launch.outChan).getLast? =
        some ChanId.lastOut := by
  induction ks with
  | nil => intro rank nIn nOut _ _ hne; exact absurd rfl hne
  | cons k ks ih =>
    intro rank nIn nOut h htot _
    have hk := h k (List.mem_cons_self k ks)
    have htail : ∀ q ∈ ks, shed.contains q = true :=
      fun q hq => h q (List.mem_cons_of_mem k hq)
    unfold wireLoop
    rw [if_pos hk]
    dsimp only
    cases ks with
    | nil =>
      have hrank : rank = total - 1 := by
        simp only [List.length_cons, List.length_nil] at htot
        omega
      rw [if_pos hrank]
      rfl
    | cons k2 ks2 =>
      have htot2 : (rank + 1) + (k2 :: ks2).length = total := by
        simp only [List.length_cons] at htot ⊢
        omega
      have hih := ih (rank + 1)
        (if rank = total - 1 then ChanId.lastOut else nOut)
        (ChanId.fresh (rank + 1)) htail htot2 (by simp)
      cases hr1 : (wireLoop shed total (k2 :: ks2) (rank + 1)
          (if rank = total - 1 then ChanId.lastOut else nOut)
          (ChanId.fresh (rank + 1))).1 with
      | nil =>
        have := (wireLoop_tools shed total (k2 :: ks2) (rank + 1)
          (if rank = total - 1 then ChanId.lastOut else nOut)
          (ChanId.fresh (rank + 1)) htail).1
        rw [hr1] at this
        exact absurd this (by simp)
      | cons l2 ls2 =>
        rw [hr1, List.map_cons] at hih
        exact hih

/-- C3.  For every valid non-listing configuration (each non-reserved
top-level key names a registered stage), the orchestrator launches exactly
one stage per non-reserved top-level key, in document key order; the first
stage's input channel is the reader's channel; each later stage's input
channel is the previous stage's output channel; and the last stage's output
channel is the terminal consumer's channel. -/
theorem bamToolbox_wiring_spec (shed tkeys : List String)
    (hvalid : ∀ k ∈ clearKeysOf tkeys, shed.contains k = true) :
    (wireStages shed tkeys).2 = none ∧
    (wireStages shed tkeys).1.map Launch.tool = clearKeysOf tkeys ∧
    List.Chain' (fun a b => b.inChan = a.outChan) (wireStages shed tkeys).1 ∧
    (clearKeysOf tkeys ≠ [] →
      (wireStages shed tkeys).1.head?.map Launch.inChan = some ChanId.reader ∧
      ((wireStages shed tkeys).1.map Launch.outChan).getLast? =
        some ChanId.lastOut) := by
  unfold wireStages
  refine ⟨(wireLoop_tools shed _ _ 0 ChanId.reader (ChanId.fresh 0) hvalid).2,
          (wireLoop_tools shed _ _ 0 ChanId.reader (ChanId.fresh 0) hvalid).1,
          wireLoop_chain shed _ _ 0 ChanId.reader (ChanId.fresh 0) hvalid,
          ?_⟩
  intro hne
  constructor
  · cases hck : clearKeysOf tkeys with
    | nil => exact absurd hck hne
    | cons k ks =>
      have hk : shed.contains k = true := by
        rw [hck] at hvalid
        exact hvalid k (List.mem_cons_self k ks)
      rw [wireLoop_head shed (k :: ks).length k ks 0 ChanId.reader
        (ChanId.fresh 0) hk]
      rfl
  · exact wireLoop_last shed _ _ 0 ChanId.reader (ChanId.fresh 0) hvalid
      (by simp) hne

/-- Witness for C3 at the configuration with top-level keys
`AlnContext`, `Sink`, `AccStats` (so the non-reserved keys are
`[AlnContext, AccStats]`), against the real registry names. -/
theorem bamToolbox_wiring_spec_witness :
    (wireStages toolshedNames ["AlnContext", "Sink", "AccStats"]).2 = none ∧
    (wireStages toolshedNames ["AlnContext", "Sink", "AccStats"]).1.map
      Launch.tool = clearKeysOf ["AlnContext", "Sink", "AccStats"] ∧
    List.Chain' (fun a b => b.inChan = a.outChan)
      (wireStages toolshedNames ["AlnContext", "Sink", "AccStats"]).1 ∧
    (clearKeysOf ["AlnContext", "Sink", "AccStats"] ≠ [] →
      (wireStages toolshedNames ["AlnContext", "Sink", "AccStats"]).1.head?.map
        Launch.inChan = some ChanId.reader ∧
      ((wireStages toolshedNames ["AlnContext", "Sink", "AccStats"]).1.map
        Launch.outChan).getLast? = some ChanId.lastOut) :=
  bamToolbox_wiring_spec toolshedNames ["AlnContext", "Sink", "AccStats"]
    (by decide)

/-- C5, counterexample.  On the configuration `[AccStats, Bogus]` the launch
loop aborts fatally naming `Bogus`, but one stage task (`AccStats`) has
already been launched before the unknown name is ever validated — refuting
the claim that no stage task is launched before every stage name has been
validated against the registry. -/
theorem wiring_validation_counterexample :
    (wireStages toolshedNames ["AccStats", "Bogus"]).2 = some "Bogus" ∧
    (wireStages toolshedNames ["AccStats", "Bogus"]).1.length = 1 := by
  decide

theorem wireLoop_fatal (shed : List String) (total : Nat) (k : String)
    (post : List String) (hk : shed.contains k = false) :
    ∀ (pre : List String) (rank : Nat) (nIn nOut : ChanId),
      (∀ x ∈ pre, shed.contains x = true) →
      (wireLoop shed total (pre ++ k :: post) rank nIn nOut).2 = some k ∧
      (wireLoop shed total (pre ++ k :: post) rank nIn nOut).1.map
        Launch.tool = pre := by
  intro pre
  induction pre with
  | nil =>
    intro rank nIn nOut _
    simp only [List.nil_append]
    unfold wireLoop
    rw [if_neg (by simp only [hk]; exact Bool.false_ne_true)]
    exact ⟨rfl, rfl⟩
  | cons p pre ih =>
    intro rank nIn nOut h
    have hp := h p (List.mem_cons_self p pre)
    simp only [List.cons_append]
    unfold wireLoop
    rw [if_pos hp]
    dsimp only
    have hrest := ih (rank + 1)
      (if rank = total - 1 then ChanId.lastOut else nOut)
      (ChanId.fresh (rank + 1))
      (fun q hq => h q (List.mem_cons_of_mem p hq))
    exact ⟨hrest.1, by rw [List.map_cons, hrest.2]⟩

/-- C5, amended.  If a non-reserved top-level key names an unknown stage, the
orchestrator aborts fatally with a diagnostic naming that stage — but
validation is interleaved with launching: every stage named before the first
unknown key has already been launched when the abort happens, so stage tasks
can be launched before all names have been validated. -/
theorem wiring_interleaved_launch_amended (shed tkeys : List String)
    (pre post : List String) (k : String)
    (hsplit : clearKeysOf tkeys = pre ++ k :: post)
    (hpre : ∀ x ∈ pre, shed.contains x = true)
    (hk : shed.contains k = false) :
    (wireStages shed tkeys).2 = some k ∧
    (wireStages shed tkeys).1.map Launch.tool = pre := by
  unfold wireStages
  rw [hsplit]
  exact wireLoop_fatal shed (pre ++ k :: post).length k post hk pre 0
    ChanId.reader (ChanId.fresh 0) hpre

/-- Witness for the amended C5 at the configuration `[AccStats, Bogus]`. -/
theorem wiring_interleaved_launch_amended_witness :
    (wireStages toolshedNames ["AccStats", "Bogus"]).2 = some "Bogus" ∧
    (wireStages toolshedNames ["AccStats", "Bogus"]).1.map Launch.tool =
      ["AccStats"] :=
  wiring_interleaved_launch_amended toolshedNames ["AccStats", "Bogus"]
    ["AccStats"] [] "Bogus" (by decide) (by decide) (by decide)

/-! ## Channel capacity, writer open mode, Tsv create -/

/-- C4 (code bug).  In `BamToolbox`, the reader's channel, the sink's
channel and the stage-to-stage channels all have capacity `chanCap` (5000),
but the writer's channel is allocated with capacity `ioBuff` (131072): the
capacities are not identical pipeline-wide, because `NewBamWriterChan` uses
its `buff` argument instead of its (otherwise unused) `cp` argument for the
channel capacity. -/
theorem writerChan_capacity_bug :
    bamToolboxReaderChanCap = 5000 ∧
    bamToolboxSinkChanCap = 5000 ∧
    interStageChanCap = 5000 ∧
    bamToolboxWriterChanCap = 131072 ∧
    bamToolboxWriterChanCap ≠ bamToolboxReaderChanCap := by
  decide

/-- C6 (code bug).  For a named (non-`"-"`) output destination,
`NewBamWriterChan` opens the destination with `os.Open` — read-only, failing
when the file does not exist — instead of creating it for writing, so the
encoded output stream cannot be stored at the named destination. -/
theorem writerChan_open_mode_bug :
    newBamWriterChanOpen "out.bam" = some ("out.bam", OpenMode.readOnly) ∧
    OpenMode.readOnly ≠ OpenMode.create := by
  decide

/-- C7 (code bug).  When `os.Create` fails on the configured Tsv path, the
stage does not abort: the error is never checked, the file handle is the nil
`invalidDest`, and the summary writes fail silently — the summary is
dropped, contradicting the fail-fast claim. -/
theorem accStats_tsv_create_unchecked_bug :
    accStatsOpenTsv "/nonexistent/acc.tsv" false = TsvDest.invalidDest ∧
    tsvWriteSucceeds TsvDest.invalidDest = false ∧
    accStatsOpenTsv "/nonexistent/acc.tsv" true =
      TsvDest.fileDest "/nonexistent/acc.tsv" ∧
    accStatsOpenTsv "-" false = TsvDest.stderrDest := by
  decide

end BamToolbox
